import Mathlib

/-!
Verification of the api-geofal-crm repository against its specification.

The development shallowly embeds:
* the client-side filter predicates of the CRM frontend (template picker
  modal, programación module) — translated from the TypeScript sources;
* the spreadsheet-document injection engine (`app/xlsx_direct_v2.py`):
  grid addressing, formula rewriting, merge-map shifting, pagination,
  row expansion, sheet XML round-trip, and the injection orchestrator.
  The engine's Python source is not among the provided files (only the
  README describing it), so those components are modelled from the spec.
-/

namespace Geofal

/-! ## String utilities

JavaScript `String.prototype.toLowerCase` and `String.prototype.includes`
modelled over `List Char`. -/

/-- Lowercase every character of a string, returning its character list. -/
def lowerD (s : String) : List Char := s.data.map Char.toLower

/-- `isPrefOf needle hay` : does `hay` start with `needle`? -/
def isPrefOf : List Char → List Char → Bool
  | [], _ => true
  | _ :: _, [] => false
  | a :: as, b :: bs => a = b && isPrefOf as bs

/-- JavaScript `hay.includes(needle)` on character lists. -/
def strIncludes (hay needle : List Char) : Bool :=
  match hay with
  | [] => needle.isEmpty
  | _ :: t => isPrefOf needle hay || strIncludes t needle

/-- `Sub needle hay` : `needle` occurs contiguously inside `hay`. -/
def Sub (needle hay : List Char) : Prop :=
  ∃ l r, hay = l ++ needle ++ r

theorem isPrefOf_iff (needle hay : List Char) :
    isPrefOf needle hay = true ↔ ∃ r, hay = needle ++ r := by
  induction needle generalizing hay with
  | nil => simp [isPrefOf]
  | cons a as ih =>
    cases hay with
    | nil => simp [isPrefOf]
    | cons b bs =>
      simp only [isPrefOf, Bool.and_eq_true, decide_eq_true_eq, ih,
        List.cons_append, List.cons.injEq]
      constructor
      · rintro ⟨rfl, r, rfl⟩; exact ⟨r, rfl, rfl⟩
      · rintro ⟨r, rfl, rfl⟩; exact ⟨rfl, r, rfl⟩

theorem strIncludes_iff (hay needle : List Char) :
    strIncludes hay needle = true ↔ Sub needle hay := by
  induction hay with
  | nil =>
    simp only [strIncludes, List.isEmpty_iff, Sub]
    constructor
    · rintro rfl; exact ⟨[], [], rfl⟩
    · rintro ⟨l, r, h⟩
      rcases List.append_eq_nil.mp h.symm with ⟨h1, h2⟩
      exact (List.append_eq_nil.mp h1).2
  | cons b bs ih =>
    simp only [strIncludes, Bool.or_eq_true, isPrefOf_iff, ih, Sub]
    constructor
    · rintro (⟨r, h⟩ | ⟨l, r, h⟩)
      · exact ⟨[], r, by simpa using h⟩
      · exact ⟨b :: l, r, by simp [h]⟩
    · rintro ⟨l, r, h⟩
      cases l with
      | nil => exact Or.inl ⟨r, by simpa using h⟩
      | cons x xs =>
        right
        refine ⟨xs, r, ?_⟩
        have h2 : b :: bs = x :: (xs ++ needle ++ r) := by simpa using h
        exact (List.cons.injEq .. ▸ h2).2

theorem strIncludes_nil (hay : List Char) : strIncludes hay [] = true := by
  cases hay <;> simp [strIncludes, isPrefOf]

/-! ## Programación module: `filteredServicios`

Translated from
`src/crm-geofal/components/dashboard/programacion-module.tsx`, lines
287–299. -/

/-- A servicio record, restricted to the fields the filter reads. -/
structure Servicio where
  cliente : String
  ensayo : String
  recep_n : String
  ot : String
  estado : String
deriving DecidableEq, Repr

/-- `matchesSearch` from the TSX source: true when the search term is empty
or the lowercased term occurs in the lowercased cliente, ensayo, recep_n or
ot. -/
def servicioMatchesSearch (searchTerm : String) (s : Servicio) : Bool :=
  searchTerm == "" ||
    strIncludes (lowerD s.cliente) (lowerD searchTerm) ||
    strIncludes (lowerD s.ensayo) (lowerD searchTerm) ||
    strIncludes (lowerD s.recep_n) (lowerD searchTerm) ||
    strIncludes (lowerD s.ot) (lowerD searchTerm)

/-- `matchesEstado` from the TSX source. -/
def servicioMatchesEstado (estadoFilter : String) (s : Servicio) : Bool :=
  estadoFilter == "all" || s.estado == estadoFilter

/-- `filteredServicios` from the TSX source: keep servicios matching both
the search term and the estado filter. -/
def filteredServicios (servicios : List Servicio)
    (searchTerm estadoFilter : String) : List Servicio :=
  servicios.filter fun s =>
    servicioMatchesSearch searchTerm s && servicioMatchesEstado estadoFilter s

/-- **C10.** Membership in `filteredServicios` is exactly: membership in the
input list, and (search term empty, or the lowercased term a substring of
the lowercased cliente, ensayo, recep_n or ot), and (estado filter `"all"`
or the servicio's estado equal to the filter). -/
theorem filteredServicios_spec (servicios : List Servicio)
    (searchTerm estadoFilter : String) (s : Servicio) :
    s ∈ filteredServicios servicios searchTerm estadoFilter ↔
      s ∈ servicios ∧
        (searchTerm = "" ∨
          Sub (lowerD searchTerm) (lowerD s.cliente) ∨
          Sub (lowerD searchTerm) (lowerD s.ensayo) ∨
          Sub (lowerD searchTerm) (lowerD s.recep_n) ∨
          Sub (lowerD searchTerm) (lowerD s.ot)) ∧
        (estadoFilter = "all" ∨ s.estado = estadoFilter) := by
  simp only [filteredServicios, List.mem_filter, Bool.and_eq_true,
    servicioMatchesSearch, servicioMatchesEstado, Bool.or_eq_true,
    beq_iff_eq, strIncludes_iff, and_assoc, or_assoc]

/-- Witness for C10: with an empty search and the `"all"` estado filter, a
concrete servicio is retained. -/
theorem filteredServicios_spec_witness :
    (⟨"ACME", "Granulometria", "R-1", "OT-1", "PENDIENTE"⟩ : Servicio) ∈
      filteredServicios
        [⟨"ACME", "Granulometria", "R-1", "OT-1", "PENDIENTE"⟩] "" "all" :=
  (filteredServicios_spec
      [⟨"ACME", "Granulometria", "R-1", "OT-1", "PENDIENTE"⟩] "" "all"
      ⟨"ACME", "Granulometria", "R-1", "OT-1", "PENDIENTE"⟩).mpr
    ⟨List.mem_cons_self _ _, Or.inl rfl, Or.inl rfl⟩

/-! ## Template picker modal: plantilla filter

Translated from `src/unnamed/part_000`, lines 30–37 (the same predicate is
repeated at lines 49–55 and 242–249; `footerCount` mirrors the footer
occurrence). -/

/-- One entry of a plantilla's `items_json`, restricted to the fields the
filter reads. -/
structure PlantItem where
  codigo : String
  descripcion : String
deriving DecidableEq, Repr

/-- A plantilla record, restricted to the fields the filter reads;
`items_json` is modelled already parsed into a list of items. -/
structure Plantilla where
  nombre : String
  descripcion : Option String
  items : List PlantItem
deriving DecidableEq, Repr

/-- `items.map(item => codigo + " " + descripcion).join(" ")` from the TSX
source. -/
def itemsText (items : List PlantItem) : String :=
  String.intercalate " " (items.map fun it => it.codigo ++ " " ++ it.descripcion)

/-- The filter predicate from the TSX source: the lowercased search occurs
in the lowercased nombre, the lowercased `descripcion || ""`, or the
lowercased joined items text. -/
def plantillaMatches (search : String) (p : Plantilla) : Bool :=
  strIncludes (lowerD p.nombre) (lowerD search) ||
  strIncludes (lowerD (p.descripcion.getD "")) (lowerD search) ||
  strIncludes (lowerD (itemsText p.items)) (lowerD search)

/-- `plantillas.filter(...)` from the TSX source. -/
def filteredPlantillas (plantillas : List Plantilla) (search : String) :
    List Plantilla :=
  plantillas.filter (plantillaMatches search)

/-- The footer's "N plantilla(s) encontrada(s)" count: the length of the
same filtered list, from lines 242–249 of the TSX source. -/
def footerCount (plantillas : List Plantilla) (search : String) : Nat :=
  (plantillas.filter (plantillaMatches search)).length

/-- **C9.** The plantilla filter retains exactly the plantillas whose
lowercased nombre, descripcion (missing treated as empty) or joined
codigo/descripcion items text contains the lowercased search; it is
case-insensitive (depends on the search only through its lowercasing),
an empty search retains everything, and the footer count equals the number
of retained plantillas. -/
theorem filteredPlantillas_spec (plantillas : List Plantilla) (search : String) :
    (∀ p, p ∈ filteredPlantillas plantillas search ↔
        p ∈ plantillas ∧
          (Sub (lowerD search) (lowerD p.nombre) ∨
           Sub (lowerD search) (lowerD (p.descripcion.getD "")) ∨
           Sub (lowerD search) (lowerD (itemsText p.items)))) ∧
    (∀ s₁ s₂ : String, lowerD s₁ = lowerD s₂ →
        filteredPlantillas plantillas s₁ = filteredPlantillas plantillas s₂) ∧
    filteredPlantillas plantillas "" = plantillas ∧
    footerCount plantillas search = (filteredPlantillas plantillas search).length := by
  refine ⟨?_, ?_, ?_, rfl⟩
  · intro p
    simp [filteredPlantillas, List.mem_filter, plantillaMatches,
      Bool.or_eq_true, strIncludes_iff, or_assoc]
  · intro s₁ s₂ h
    refine List.filter_congr fun p _ => ?_
    simp [plantillaMatches, h]
  · have hall : ∀ p, plantillaMatches "" p = true := by
      intro p
      simp [plantillaMatches, lowerD, strIncludes_nil]
    simp [filteredPlantillas, List.filter_eq_self.mpr fun p _ => hall p]

/-- Witness for C9 at a concrete input: a one-element plantilla list with
the empty search is retained whole. -/
theorem filteredPlantillas_spec_witness :
    filteredPlantillas [⟨"Suelos", none, [⟨"E-101", "Granulometría"⟩]⟩] "" =
      [⟨"Suelos", none, [⟨"E-101", "Granulometría"⟩]⟩] :=
  (filteredPlantillas_spec [⟨"Suelos", none, [⟨"E-101", "Granulometría"⟩]⟩] "").2.2.1

/-! ## Error taxonomy

Modelled from the spec: §7 lists the fatal error kinds of the engine
(`PartialRewriteWarning` is non-fatal and is not an error value). -/

/-- The fatal error kinds of §7. -/
inductive EngineError where
  | FormatError
  | MissingPartError
  | IndexError
  | RangeError
  | AmbiguousMergeError
deriving DecidableEq, Repr

/-! ## Grid Addressing

Modelled from the spec: §4.4 describes `app/xlsx_direct_v2.py`'s pure
reference conversions, whose Python source is not among the provided
files. Reference text is modelled as a list of characters; columns use
bijective base-26 letters, rows decimal digits; the format maxima are the
OOXML sheet limits. -/

/-- Maximum row of the spreadsheet format. -/
def maxRow : Nat := 1048576

/-- Maximum column of the spreadsheet format. -/
def maxCol : Nat := 16384

/-- Bijective base-26 column letters: 1 ↦ "A", 26 ↦ "Z", 27 ↦ "AA". -/
def colLetters (n : Nat) : List Char :=
  if h : n = 0 then []
  else colLetters ((n - 1) / 26) ++ [Char.ofNat (65 + (n - 1) % 26)]
termination_by n
decreasing_by
  exact Nat.lt_of_le_of_lt (Nat.div_le_self _ _)
    (Nat.sub_lt (Nat.pos_of_ne_zero h) Nat.one_pos)

/-- Decimal digits of a positive number, most significant first. -/
def natDigits (n : Nat) : List Char :=
  if h : n = 0 then []
  else natDigits (n / 10) ++ [Char.ofNat (48 + n % 10)]
termination_by n
decreasing_by
  exact Nat.div_lt_self (Nat.pos_of_ne_zero h) (by norm_num)

/-- Value of one column letter, `'A' ↦ 1 … 'Z' ↦ 26`. -/
def letterVal (c : Char) : Option Nat :=
  if 'A' ≤ c ∧ c ≤ 'Z' then some (c.toNat - 64) else none

/-- Value of one decimal digit character. -/
def digitVal (c : Char) : Option Nat :=
  if '0' ≤ c ∧ c ≤ '9' then some (c.toNat - 48) else none

/-- Accumulating bijective base-26 evaluation of a letter run. -/
def lettersValAux : List Char → Nat → Option Nat
  | [], acc => some acc
  | c :: cs, acc =>
    match letterVal c with
    | some v => lettersValAux cs (acc * 26 + v)
    | none => none

/-- Accumulating decimal evaluation of a digit run. -/
def digitsValAux : List Char → Nat → Option Nat
  | [], acc => some acc
  | c :: cs, acc =>
    match digitVal c with
    | some v => digitsValAux cs (acc * 10 + v)
    | none => none

/-- Column value of a nonempty run of letters. -/
def lettersToCol (cs : List Char) : Option Nat :=
  if cs = [] then none else lettersValAux cs 0

/-- Row value of a nonempty run of digits. -/
def digitsToNat (cs : List Char) : Option Nat :=
  if cs = [] then none else digitsValAux cs 0

/-- Is the character an uppercase column letter? -/
def isUpperCh (c : Char) : Bool := decide ('A' ≤ c ∧ c ≤ 'Z')

/-- `toReference(column, row)` of §4.4: column letters then row digits. -/
def toReference (col row : Nat) : List Char := colLetters col ++ natDigits row

/-- `parseReference(text)` of §4.4: split into a leading letter run and a
trailing digit run; fail when either run is empty, a non-digit follows the
letters, or the row is zero. -/
def parseReference (cs : List Char) : Option (Nat × Nat) :=
  match lettersToCol (cs.takeWhile isUpperCh),
        digitsToNat (cs.dropWhile isUpperCh) with
  | some c, some r => if 1 ≤ r then some (c, r) else none
  | _, _ => none

theorem colLetters_zero : colLetters 0 = [] := by
  rw [colLetters]
  rfl

theorem colLetters_pos (n : Nat) (h : n ≠ 0) :
    colLetters n = colLetters ((n - 1) / 26) ++ [Char.ofNat (65 + (n - 1) % 26)] := by
  rw [colLetters]
  simp [h]

theorem natDigits_zero : natDigits 0 = [] := by
  rw [natDigits]
  rfl

theorem natDigits_pos (n : Nat) (h : n ≠ 0) :
    natDigits n = natDigits (n / 10) ++ [Char.ofNat (48 + n % 10)] := by
  rw [natDigits]
  simp [h]

theorem letterVal_ofNat (k : Nat) (hk : k < 26) :
    letterVal (Char.ofNat (65 + k)) = some (k + 1) := by
  interval_cases k <;> decide

theorem digitVal_ofNat (k : Nat) (hk : k < 10) :
    digitVal (Char.ofNat (48 + k)) = some k := by
  interval_cases k <;> decide

theorem isUpperCh_letter (k : Nat) (hk : k < 26) :
    isUpperCh (Char.ofNat (65 + k)) = true := by
  interval_cases k <;> decide

theorem isUpperCh_digit (k : Nat) (hk : k < 10) :
    isUpperCh (Char.ofNat (48 + k)) = false := by
  interval_cases k <;> decide

theorem lettersValAux_append (l1 l2 : List Char) (acc : Nat) :
    lettersValAux (l1 ++ l2) acc =
      match lettersValAux l1 acc with
      | some m => lettersValAux l2 m
      | none => none := by
  induction l1 generalizing acc with
  | nil => rfl
  | cons c cs ih =>
    simp only [List.cons_append, lettersValAux]
    cases letterVal c <;> simp [ih]

theorem digitsValAux_append (l1 l2 : List Char) (acc : Nat) :
    digitsValAux (l1 ++ l2) acc =
      match digitsValAux l1 acc with
      | some m => digitsValAux l2 m
      | none => none := by
  induction l1 generalizing acc with
  | nil => rfl
  | cons c cs ih =>
    simp only [List.cons_append, digitsValAux]
    cases digitVal c <;> simp [ih]

theorem lettersValAux_colLetters (n : Nat) :
    ∀ acc, lettersValAux (colLetters n) acc =
      some (acc * 26 ^ (colLetters n).length + n) := by
  induction n using Nat.strong_induction_on with
  | _ n ih =>
    intro acc
    rcases Nat.eq_zero_or_pos n with rfl | hn
    · simp [colLetters_zero, lettersValAux]
    · have hne : n ≠ 0 := Nat.pos_iff_ne_zero.mp hn
      have hlt : (n - 1) / 26 < n :=
        Nat.lt_of_le_of_lt (Nat.div_le_self _ _) (Nat.sub_lt hn Nat.one_pos)
      have hmod : (n - 1) % 26 < 26 := Nat.mod_lt _ (by norm_num)
      rw [colLetters_pos n hne, lettersValAux_append, ih _ hlt acc]
      simp only [lettersValAux, letterVal_ofNat _ hmod]
      have hdm : 26 * ((n - 1) / 26) + (n - 1) % 26 = n - 1 :=
        Nat.div_add_mod (n - 1) 26
      simp only [List.length_append, List.length_singleton, pow_succ]
      congr 1
      set L := (colLetters ((n - 1) / 26)).length with hL
      set Y := acc * 26 ^ L with hY
      have : acc * (26 ^ L * 26) = Y * 26 := by rw [hY]; ring
      rw [this]
      omega

theorem digitsValAux_natDigits (n : Nat) :
    ∀ acc, digitsValAux (natDigits n) acc =
      some (acc * 10 ^ (natDigits n).length + n) := by
  induction n using Nat.strong_induction_on with
  | _ n ih =>
    intro acc
    rcases Nat.eq_zero_or_pos n with rfl | hn
    · simp [natDigits_zero, digitsValAux]
    · have hne : n ≠ 0 := Nat.pos_iff_ne_zero.mp hn
      have hlt : n / 10 < n := Nat.div_lt_self hn (by norm_num)
      have hmod : n % 10 < 10 := Nat.mod_lt _ (by norm_num)
      rw [natDigits_pos n hne, digitsValAux_append, ih _ hlt acc]
      simp only [digitsValAux, digitVal_ofNat _ hmod]
      have hdm : 10 * (n / 10) + n % 10 = n := Nat.div_add_mod n 10
      simp only [List.length_append, List.length_singleton, pow_succ]
      congr 1
      set L := (natDigits (n / 10)).length with hL
      set Y := acc * 10 ^ L with hY
      have : acc * (10 ^ L * 10) = Y * 10 := by rw [hY]; ring
      rw [this]
      omega

theorem colLetters_ne_nil (n : Nat) (h : n ≠ 0) : colLetters n ≠ [] := by
  rw [colLetters_pos n h]
  simp

theorem natDigits_ne_nil (n : Nat) (h : n ≠ 0) : natDigits n ≠ [] := by
  rw [natDigits_pos n h]
  simp

theorem lettersToCol_colLetters (n : Nat) (h : n ≠ 0) :
    lettersToCol (colLetters n) = some n := by
  rw [lettersToCol, if_neg (colLetters_ne_nil n h), lettersValAux_colLetters]
  simp

theorem digitsToNat_natDigits (n : Nat) (h : n ≠ 0) :
    digitsToNat (natDigits n) = some n := by
  rw [digitsToNat, if_neg (natDigits_ne_nil n h), digitsValAux_natDigits]
  simp

theorem colLetters_all_upper (n : Nat) :
    ∀ c ∈ colLetters n, isUpperCh c = true := by
  induction n using Nat.strong_induction_on with
  | _ n ih =>
    rcases Nat.eq_zero_or_pos n with rfl | hn
    · simp [colLetters_zero]
    · have hne : n ≠ 0 := Nat.pos_iff_ne_zero.mp hn
      have hlt : (n - 1) / 26 < n :=
        Nat.lt_of_le_of_lt (Nat.div_le_self _ _) (Nat.sub_lt hn Nat.one_pos)
      rw [colLetters_pos n hne]
      intro c hc
      rcases List.mem_append.mp hc with h1 | h2
      · exact ih _ hlt c h1
      · have : c = Char.ofNat (65 + (n - 1) % 26) := by simpa using h2
        subst this
        exact isUpperCh_letter _ (Nat.mod_lt _ (by norm_num))

theorem natDigits_not_upper (n : Nat) :
    ∀ c ∈ natDigits n, isUpperCh c = false := by
  induction n using Nat.strong_induction_on with
  | _ n ih =>
    rcases Nat.eq_zero_or_pos n with rfl | hn
    · simp [natDigits_zero]
    · have hne : n ≠ 0 := Nat.pos_iff_ne_zero.mp hn
      have hlt : n / 10 < n := Nat.div_lt_self hn (by norm_num)
      rw [natDigits_pos n hne]
      intro c hc
      rcases List.mem_append.mp hc with h1 | h2
      · exact ih _ hlt c h1
      · have : c = Char.ofNat (48 + n % 10) := by simpa using h2
        subst this
        exact isUpperCh_digit _ (Nat.mod_lt _ (by norm_num))

theorem takeWhile_append_all {p : Char → Bool} (l1 l2 : List Char)
    (h : ∀ c ∈ l1, p c = true) :
    (l1 ++ l2).takeWhile p = l1 ++ l2.takeWhile p := by
  induction l1 with
  | nil => simp
  | cons c cs ih =>
    simp only [List.cons_append, List.takeWhile_cons,
      h c (List.mem_cons_self c cs), if_true, List.cons.injEq, true_and]
    exact ih fun x hx => h x (List.mem_cons_of_mem _ hx)

theorem dropWhile_append_all {p : Char → Bool} (l1 l2 : List Char)
    (h : ∀ c ∈ l1, p c = true) :
    (l1 ++ l2).dropWhile p = l2.dropWhile p := by
  induction l1 with
  | nil => simp
  | cons c cs ih =>
    simp only [List.cons_append, List.dropWhile_cons,
      h c (List.mem_cons_self c cs), if_true]
    exact ih fun x hx => h x (List.mem_cons_of_mem _ hx)

theorem takeWhile_head_false {p : Char → Bool} (l : List Char)
    (hne : l ≠ []) (h : ∀ c ∈ l, p c = false) : l.takeWhile p = [] := by
  cases l with
  | nil => exact absurd rfl hne
  | cons c cs => simp [List.takeWhile_cons, h c (List.mem_cons_self c cs)]

theorem dropWhile_head_false {p : Char → Bool} (l : List Char)
    (hne : l ≠ []) (h : ∀ c ∈ l, p c = false) : l.dropWhile p = l := by
  cases l with
  | nil => exact absurd rfl hne
  | cons c cs => simp [List.dropWhile_cons, h c (List.mem_cons_self c cs)]

theorem parseReference_toReference (c r : Nat) (hc : 1 ≤ c) (hr : 1 ≤ r) :
    parseReference (toReference c r) = some (c, r) := by
  have hcne : c ≠ 0 := by omega
  have hrne : r ≠ 0 := by omega
  have htw : (colLetters c ++ natDigits r).takeWhile isUpperCh = colLetters c := by
    rw [takeWhile_append_all _ _ (colLetters_all_upper c),
      takeWhile_head_false _ (natDigits_ne_nil r hrne) (natDigits_not_upper r),
      List.append_nil]
  have hdw : (colLetters c ++ natDigits r).dropWhile isUpperCh = natDigits r := by
    rw [dropWhile_append_all _ _ (colLetters_all_upper c),
      dropWhile_head_false _ (natDigits_ne_nil r hrne) (natDigits_not_upper r)]
  rw [parseReference, toReference, htw, hdw,
    lettersToCol_colLetters c hcne, digitsToNat_natDigits r hrne]
  simp [hr]

/-- **C6.** `toReference` and `parseReference` are mutual inverses on the
valid domain: parsing the rendering of any `(column, row)` with
`column ≥ 1`, `1 ≤ row ≤ maxRow` recovers the pair, and any text in the
valid domain (the rendering of such a pair) is reproduced by rendering the
pair it parses to. -/
theorem reference_inverses :
    (∀ c r : Nat, 1 ≤ c → 1 ≤ r → r ≤ maxRow →
        parseReference (toReference c r) = some (c, r)) ∧
    (∀ cs : List Char,
        (∃ c r, 1 ≤ c ∧ 1 ≤ r ∧ r ≤ maxRow ∧ cs = toReference c r) →
        ∃ c r, parseReference cs = some (c, r) ∧ toReference c r = cs) := by
  constructor
  · intro c r hc hr _
    exact parseReference_toReference c r hc hr
  · rintro cs ⟨c, r, hc, hr, _, rfl⟩
    exact ⟨c, r, parseReference_toReference c r hc hr, rfl⟩

/-- Witness for C6 at a concrete reference: column 28, row 14 renders to
"AB14" and parses back. -/
theorem reference_inverses_witness :
    parseReference (toReference 28 14) = some (28, 14) :=
  reference_inverses.1 28 14 (by decide) (by decide) (by decide)

/-- `shiftReference` of §4.4 (modelled from the spec): absolute components
are never shifted; relative components shift by the delta; a shift leaving
the format's structural limits fails with `RangeError` rather than
wrapping. -/
def shiftReference (cs : List Char) (rowDelta colDelta : Int)
    (absRowM absColM : Bool) : Except EngineError (List Char) :=
  match parseReference cs with
  | none => .error .FormatError
  | some (c, r) =>
    let r2 : Int := if absRowM then (r : Int) else (r : Int) + rowDelta
    let c2 : Int := if absColM then (c : Int) else (c : Int) + colDelta
    if r2 < 1 ∨ (maxRow : Int) < r2 ∨ c2 < 1 ∨ (maxCol : Int) < c2 then
      .error .RangeError
    else
      .ok (toReference c2.toNat r2.toNat)

/-- **C7.** A relative-row shift that would leave the format's maximum row
fails with `RangeError`; and whenever `shiftReference` succeeds, the
returned text parses back to exactly the unwrapped shifted coordinates,
which lie within the format limits — so no wrapped or truncated row is
ever returned. -/
theorem shiftReference_range_spec :
    (∀ (cs : List Char) (rowDelta : Int) (c r : Nat),
        parseReference cs = some (c, r) →
        (maxRow : Int) < (r : Int) + rowDelta →
        shiftReference cs rowDelta 0 false false = .error .RangeError) ∧
    (∀ (cs : List Char) (rowDelta colDelta : Int) (aR aC : Bool)
        (out : List Char),
        shiftReference cs rowDelta colDelta aR aC = .ok out →
        ∃ c r c2 r2 : Nat, parseReference cs = some (c, r) ∧
          (r2 : Int) = (if aR then (r : Int) else (r : Int) + rowDelta) ∧
          (c2 : Int) = (if aC then (c : Int) else (c : Int) + colDelta) ∧
          1 ≤ r2 ∧ r2 ≤ maxRow ∧ 1 ≤ c2 ∧ c2 ≤ maxCol ∧
          out = toReference c2 r2 ∧
          parseReference out = some (c2, r2)) := by
  constructor
  · intro cs rowDelta c r hparse hover
    rw [shiftReference, hparse]
    simp only [if_neg (Bool.false_ne_true), Bool.false_eq_true, if_false]
    rw [if_pos]
    right; left
    exact hover
  · intro cs rowDelta colDelta aR aC out hok
    rw [shiftReference] at hok
    rcases hp : parseReference cs with _ | ⟨c, r⟩
    · rw [hp] at hok; exact absurd hok (by simp)
    · rw [hp] at hok
      simp only at hok
      set r2 : Int := if aR then (r : Int) else (r : Int) + rowDelta with hr2
      set c2 : Int := if aC then (c : Int) else (c : Int) + colDelta with hc2
      by_cases hcond : r2 < 1 ∨ (maxRow : Int) < r2 ∨ c2 < 1 ∨ (maxCol : Int) < c2
      · rw [if_pos hcond] at hok; exact absurd hok (by simp)
      · rw [if_neg hcond] at hok
        push_neg at hcond
        obtain ⟨h1, h2, h3, h4⟩ := hcond
        have hr2nn : 0 ≤ r2 := le_trans (by norm_num) h1
        have hc2nn : 0 ≤ c2 := le_trans (by norm_num) h3
        have hout : out = toReference c2.toNat r2.toNat := by
          simpa using hok.symm
        have hrr : (r2.toNat : Int) = r2 := Int.toNat_of_nonneg hr2nn
        have hcc : (c2.toNat : Int) = c2 := Int.toNat_of_nonneg hc2nn
        refine ⟨c, r, c2.toNat, r2.toNat, rfl, by rw [hrr, hr2],
          by rw [hcc, hc2], ?_, ?_, ?_, ?_, hout, ?_⟩
        · omega
        · have : (r2.toNat : Int) ≤ (maxRow : Int) := by rw [hrr]; exact h2
          exact_mod_cast this
        · omega
        · have : (c2.toNat : Int) ≤ (maxCol : Int) := by rw [hcc]; exact h4
          exact_mod_cast this
        · rw [hout]
          exact parseReference_toReference _ _ (by omega) (by omega)

/-- Witness for C7: shifting "A1048570" (row 1048570) down by 10 rows
exceeds `maxRow = 1048576` and fails with `RangeError`. -/
theorem shiftReference_range_spec_witness :
    shiftReference (toReference 1 1048570) 10 0 false false =
      .error .RangeError :=
  shiftReference_range_spec.1 (toReference 1 1048570) 10 1 1048570
    (parseReference_toReference 1 1048570 (by decide) (by decide))
    (by decide)

/-! ## Formula Reference Rewriter

Modelled from the spec: §4.7 describes the rewriter of
`app/xlsx_direct_v2.py`, whose Python source is not among the provided
files. The tokenizer of §4.7 splits a formula into literal/operator
tokens, single reference tokens and range tokens; the rewriter is
modelled on that token stream. -/

/-- A cell reference token inside a formula: column, row, and the
absolute-marker flags of spreadsheet syntax. -/
structure FRef where
  col : Nat
  row : Nat
  absCol : Bool
  absRow : Bool
deriving DecidableEq, Repr

/-- A token of the minimal formula grammar of §4.7. -/
inductive FTok where
  | lit (s : String)
  | ref (a : FRef)
  | range (a b : FRef)
deriving DecidableEq, Repr

/-- Shift one reference of a formula: an absolute row or a row at or above
the anchor is untouched; a relative row strictly below the anchor moves
down by the delta. -/
def shiftFRef (rowDelta anchorRow : Nat) (a : FRef) : FRef :=
  if a.absRow || decide (a.row ≤ anchorRow) then a
  else { a with row := a.row + rowDelta }

/-- Rewrite one token: literals pass through; each reference of a cell or
range token is shifted with `shiftFRef`. -/
def rewriteTok (rowDelta anchorRow : Nat) : FTok → FTok
  | .lit s => .lit s
  | .ref a => .ref (shiftFRef rowDelta anchorRow a)
  | .range a b =>
      .range (shiftFRef rowDelta anchorRow a) (shiftFRef rowDelta anchorRow b)

/-- `rewrite(formulaText, rowDelta, anchorRow)` of §4.7 over the formula's
token stream. -/
def rewrite (toks : List FTok) (rowDelta anchorRow : Nat) : List FTok :=
  toks.map (rewriteTok rowDelta anchorRow)

/-- **C2.** `rewrite` maps every token in place; a relative reference with
row strictly below the anchor is shifted by exactly the row delta with
column and markers unchanged; a reference at or above the anchor is
unchanged; an absolute-row reference is never shifted regardless of
position (alone or inside a range); and a range whose start is at or above
the anchor and whose end is strictly below it has only its end shifted. -/
theorem rewrite_spec (rowDelta anchorRow : Nat) (toks : List FTok) :
    ((rewrite toks rowDelta anchorRow).length = toks.length) ∧
    (∀ (i : Nat) (h1 : i < (rewrite toks rowDelta anchorRow).length)
        (h2 : i < toks.length),
        (rewrite toks rowDelta anchorRow).get ⟨i, h1⟩ =
          rewriteTok rowDelta anchorRow (toks.get ⟨i, h2⟩)) ∧
    (∀ a : FRef, a.absRow = false → anchorRow < a.row →
        rewriteTok rowDelta anchorRow (.ref a) =
          .ref ⟨a.col, a.row + rowDelta, a.absCol, false⟩) ∧
    (∀ a : FRef, a.row ≤ anchorRow →
        rewriteTok rowDelta anchorRow (.ref a) = .ref a) ∧
    (∀ a : FRef, a.absRow = true →
        rewriteTok rowDelta anchorRow (.ref a) = .ref a) ∧
    (∀ a b : FRef, a.row ≤ anchorRow → b.absRow = true →
        rewriteTok rowDelta anchorRow (.range a b) = .range a b) ∧
    (∀ a b : FRef, a.row ≤ anchorRow → anchorRow < b.row → b.absRow = false →
        rewriteTok rowDelta anchorRow (.range a b) =
          .range a ⟨b.col, b.row + rowDelta, b.absCol, false⟩) := by
  refine ⟨by simp [rewrite], ?_, ?_, ?_, ?_, ?_, ?_⟩
  · intro i h1 h2
    simp [rewrite]
  · rintro ⟨c, r, ac, ar⟩ hab hlt
    dsimp only at hab hlt
    subst hab
    have hn : ¬ r ≤ anchorRow := by omega
    simp [rewriteTok, shiftFRef, hn]
  · rintro ⟨c, r, ac, ar⟩ hle
    dsimp only at hle
    simp [rewriteTok, shiftFRef, hle]
  · rintro ⟨c, r, ac, ar⟩ hab
    dsimp only at hab
    subst hab
    simp [rewriteTok, shiftFRef]
  · rintro ⟨ca, ra, aca, ara⟩ ⟨cb, rb, acb, arb⟩ hle hab
    dsimp only at hle hab
    subst hab
    simp [rewriteTok, shiftFRef, hle]
  · rintro ⟨ca, ra, aca, ara⟩ ⟨cb, rb, acb, arb⟩ hle hlt hab
    dsimp only at hle hlt hab
    subst hab
    have hn : ¬ rb ≤ anchorRow := by omega
    simp [rewriteTok, shiftFRef, hle, hn]

/-- Witness for C2: a formula `=C21` rewritten with delta 4 at anchor 20
becomes `=C25`. -/
theorem rewrite_spec_witness :
    rewriteTok 4 20 (.ref ⟨3, 21, false, false⟩) =
      .ref ⟨3, 25, false, false⟩ :=
  (rewrite_spec 4 20 []).2.2.1 ⟨3, 21, false, false⟩ rfl (by decide)

/-! ## Merge Map

Modelled from the spec: §4.5 describes the Merge Map of
`app/xlsx_direct_v2.py`, whose Python source is not among the provided
files. A rectangle is a pair of corners; rows grow downward, so "at or
below row `a`" means row index `≥ a`. -/

/-- A merged-cell rectangle: top/bottom edge rows and left/right edge
columns. -/
structure Rect where
  top : Nat
  bottom : Nat
  left : Nat
  right : Nat
deriving DecidableEq, Repr

/-- Does the rectangle straddle the anchor: top edge above, bottom edge at
or below? -/
def straddles (anchor : Nat) (r : Rect) : Bool :=
  decide (r.top < anchor ∧ anchor ≤ r.bottom)

/-- Shift one rectangle for `shiftBelow`: entirely at or below the anchor
is translated; straddling is ambiguous; entirely above is untouched. -/
def shiftRect (anchor delta : Nat) (r : Rect) : Except EngineError Rect :=
  if anchor ≤ r.top then
    .ok { r with top := r.top + delta, bottom := r.bottom + delta }
  else if anchor ≤ r.bottom then .error .AmbiguousMergeError
  else .ok r

/-- `shiftBelow(row, delta)` of §4.5 over the whole Merge Map: shift each
rectangle, aborting on the first ambiguous one. -/
def shiftBelow (anchor delta : Nat) : List Rect → Except EngineError (List Rect)
  | [] => .ok []
  | r :: rs =>
    match shiftRect anchor delta r, shiftBelow anchor delta rs with
    | .ok r2, .ok rs2 => .ok (r2 :: rs2)
    | .error e, _ => .error e
    | .ok _, .error e => .error e

theorem shiftBelow_ok_of_no_straddle (anchor delta : Nat) (m : List Rect)
    (h : ∀ r ∈ m, straddles anchor r = false) :
    shiftBelow anchor delta m = .ok (m.map fun r =>
      if anchor ≤ r.top then
        { r with top := r.top + delta, bottom := r.bottom + delta }
      else r) := by
  induction m with
  | nil => rfl
  | cons a as ih =>
    have ha := h a (List.mem_cons_self a as)
    have has : ∀ r ∈ as, straddles anchor r = false :=
      fun r hr => h r (List.mem_cons_of_mem _ hr)
    simp only [straddles, decide_eq_false_iff_not, not_and, not_le] at ha
    rcases le_or_lt anchor a.top with hat | hat
    · rw [shiftBelow, shiftRect, if_pos hat, ih has]
      simp [if_pos hat]
    · have hab : ¬ anchor ≤ a.bottom := Nat.not_le.mpr (ha hat)
      rw [shiftBelow, shiftRect, if_neg (Nat.not_le.mpr hat), if_neg hab,
        ih has]
      simp [if_neg (Nat.not_le.mpr hat)]

theorem shiftBelow_error_of_straddle (anchor delta : Nat) (m : List Rect)
    (r : Rect) (hr : r ∈ m) (hs : straddles anchor r = true) :
    shiftBelow anchor delta m = .error .AmbiguousMergeError := by
  induction m with
  | nil => exact absurd hr (List.not_mem_nil r)
  | cons a as ih =>
    simp only [straddles, decide_eq_true_eq] at hs
    rcases List.mem_cons.mp hr with rfl | hmem
    · have h1 : ¬ anchor ≤ r.top := Nat.not_le.mpr hs.1
      rw [shiftBelow, shiftRect, if_neg h1, if_pos hs.2]
    · rw [shiftBelow, ih hmem]
      rcases ha : shiftRect anchor delta a with e | a2
      · have he : e = EngineError.AmbiguousMergeError := by
          rw [shiftRect] at ha
          by_cases h1 : anchor ≤ a.top
          · rw [if_pos h1] at ha; cases ha
          · rw [if_neg h1] at ha
            by_cases h2 : anchor ≤ a.bottom
            · rw [if_pos h2] at ha; injection ha with h3; exact h3.symm
            · rw [if_neg h2] at ha; cases ha
        subst he
        rfl
      · rfl

/-- **C4.** `shiftBelow(anchor, delta)`: when no rectangle straddles the
anchor, every rectangle with both corners at or below the anchor is
translated by exactly `delta` in both corners' row components with the
column edges unchanged (and rectangles entirely above are untouched);
any straddling rectangle makes the whole shift fail with
`AmbiguousMergeError`. -/
theorem shiftBelow_spec (anchor delta : Nat) (m : List Rect) :
    ((∀ r ∈ m, straddles anchor r = false) →
        shiftBelow anchor delta m = .ok (m.map fun r =>
          if anchor ≤ r.top then
            { r with top := r.top + delta, bottom := r.bottom + delta }
          else r)) ∧
    (∀ r ∈ m, straddles anchor r = true →
        shiftBelow anchor delta m = .error .AmbiguousMergeError) := by
  exact ⟨shiftBelow_ok_of_no_straddle anchor delta m,
    fun r hr hs => shiftBelow_error_of_straddle anchor delta m r hr hs⟩

/-- Witness for C4: shifting the single rectangle rows 5–7, columns 1–2 at
anchor 3 by 4 translates both corners by 4. -/
theorem shiftBelow_spec_witness :
    shiftBelow 3 4 [⟨5, 7, 1, 2⟩] = .ok [⟨9, 11, 1, 2⟩] := by
  have h := (shiftBelow_spec 3 4 [⟨5, 7, 1, 2⟩]).1 (by decide)
  simpa using h

/-! ## Sheet Model

Modelled from the spec: §3's Sheet Model of `app/xlsx_direct_v2.py`,
whose Python source is not among the provided files. Cell references are
held as Grid Addressing coordinates. -/

/-- The value variant of a cell (§3): empty, inline string, shared-string
index, formula with cached result, or numeric literal. -/
inductive CellValue where
  | empty
  | inlineStr (s : String)
  | sharedIdx (i : Nat)
  | formula (toks : List FTok) (cached : String)
  | number (lit : String)
deriving DecidableEq, Repr

/-- A cell: reference coordinates, style index and value. -/
structure Cell where
  colRef : Nat
  rowRef : Nat
  style : Nat
  value : CellValue
deriving DecidableEq, Repr

/-- A row: 1-based index, nullable height, ordered cells. -/
structure SRow where
  idx : Nat
  height : Option Nat
  cells : List Cell
deriving DecidableEq, Repr

/-- The in-memory sheet: ordered rows plus the sheet's Merge Map. -/
structure SheetModel where
  rows : List SRow
  merges : List Rect
deriving DecidableEq, Repr

/-! ## Pagination Planner

Modelled from the spec: §4.8 describes `computeBreaks` of
`app/xlsx_direct_v2.py`, whose Python source is not among the provided
files. A break before row `b` is relevant to a merge region through its
row interval only; since §3's non-overlap is cell-level, distinct
multi-row regions may share rows (side-by-side blocks), so the §4.8
deferral of a break to a region's start is re-applied while that start
itself lands strictly inside another multi-row region — each deferral
strictly decreases the break row, so the break row bounds the number of
deferrals. -/

/-- Default row height applied when a row has none (§4.8). -/
def defaultHeight : Nat := 15

/-- Effective height of a row. -/
def rowHeight (r : SRow) : Nat := r.height.getD defaultHeight

/-- Raw break positions: walk rows accumulating height; whenever the
accumulated height would exceed the printable height, place a break before
the current row and reset the accumulator to that row's height. -/
def rawBreaksAux (printable : Nat) : List SRow → Nat → List Nat
  | [], _ => []
  | r :: rs, acc =>
    if printable < acc + rowHeight r then
      r.idx :: rawBreaksAux printable rs (rowHeight r)
    else rawBreaksAux printable rs (acc + rowHeight r)

/-- Raw break positions of a row list. -/
def rawBreaks (printable : Nat) (rows : List SRow) : List Nat :=
  rawBreaksAux printable rows 0

/-- Is a break before row `b` strictly inside the multi-row merge region
`r`? (it splits `r` exactly when `r.top < b ≤ r.bottom`). -/
def insideMerge (b : Nat) (r : Rect) : Bool :=
  decide (r.top < r.bottom ∧ r.top < b ∧ b ≤ r.bottom)

/-- Defer a break landing strictly inside a multi-row merge region to the
region's start, re-applying the rule while the start lands strictly inside
another multi-row region; the fuel argument only bounds the number of
deferrals, each of which strictly decreases the break row. -/
def adjustBreakAux : Nat → List Rect → Nat → Nat
  | 0, _, b => b
  | fuel + 1, merges, b =>
    match merges.find? (insideMerge b) with
    | some r => adjustBreakAux fuel merges r.top
    | none => b

/-- The §4.8 deferral rule at a raw break position: the break row itself
bounds the number of deferrals. -/
def adjustBreak (merges : List Rect) (b : Nat) : Nat :=
  adjustBreakAux b merges b

/-- `computeBreaks(SheetModel, printableHeight)` of §4.8. -/
def computeBreaks (m : SheetModel) (printable : Nat) : List Nat :=
  (rawBreaks printable m.rows).map (adjustBreak m.merges)

theorem insideMerge_zero (r : Rect) : insideMerge 0 r = false := by
  simp only [insideMerge, decide_eq_false_iff_not, not_and, not_le]
  omega

theorem adjustBreakAux_none (fuel : Nat) (merges : List Rect) (b : Nat)
    (h : merges.find? (insideMerge b) = none) :
    adjustBreakAux fuel merges b = b := by
  cases fuel with
  | zero => rfl
  | succ f => rw [adjustBreakAux, h]

theorem adjustBreakAux_not_inside (merges : List Rect) :
    ∀ fuel b : Nat, b ≤ fuel →
      ∀ r2 ∈ merges, insideMerge (adjustBreakAux fuel merges b) r2 = false := by
  intro fuel
  induction fuel with
  | zero =>
    intro b hb r2 hr2
    interval_cases b
    exact insideMerge_zero r2
  | succ f ih =>
    intro b hb r2 hr2
    rcases hf : merges.find? (insideMerge b) with _ | r
    · rw [adjustBreakAux, hf]
      exact Bool.of_not_eq_true (List.find?_eq_none.mp hf r2 hr2)
    · rw [adjustBreakAux, hf]
      have hin : insideMerge b r = true := List.find?_some hf
      simp only [insideMerge, decide_eq_true_eq] at hin
      exact ih r.top (by omega) r2 hr2

theorem adjustBreakAux_to_top (merges : List Rect) :
    ∀ (fuel b : Nat) (r : Rect), b ≤ fuel →
      merges.find? (insideMerge b) = some r →
      ∃ r2 ∈ merges, r2.top < r2.bottom ∧
        adjustBreakAux fuel merges b = r2.top := by
  intro fuel
  induction fuel with
  | zero =>
    intro b r hb hf
    interval_cases b
    have hin : insideMerge 0 r = true := List.find?_some hf
    rw [insideMerge_zero r] at hin
    cases hin
  | succ f ih =>
    intro b r hb hf
    rw [adjustBreakAux, hf]
    have hin : insideMerge b r = true := List.find?_some hf
    have hrmem : r ∈ merges := List.mem_of_find?_eq_some hf
    simp only [insideMerge, decide_eq_true_eq] at hin
    rcases hf2 : merges.find? (insideMerge r.top) with _ | r3
    · exact ⟨r, hrmem, hin.1, adjustBreakAux_none f merges r.top hf2⟩
    · exact ih r.top r3 (by omega) hf2

/-- **C5.** For every sheet model and printable height, no break returned
by `computeBreaks` falls strictly inside a multi-row merge region; and
whenever the raw accumulated position lands strictly inside such a region,
the returned break is the start of a multi-row merge region — §4.8's
deferral, re-applied while a start lands inside another region. -/
theorem computeBreaks_spec (m : SheetModel) (printable : Nat) :
    (∀ b ∈ computeBreaks m printable, ∀ r ∈ m.merges,
        insideMerge b r = false) ∧
    (∀ (b0 : Nat) (r : Rect), m.merges.find? (insideMerge b0) = some r →
        ∃ r2 ∈ m.merges, r2.top < r2.bottom ∧
          adjustBreak m.merges b0 = r2.top) := by
  constructor
  · intro b hb
    rw [computeBreaks] at hb
    rcases List.mem_map.mp hb with ⟨b0, _, rfl⟩
    exact adjustBreakAux_not_inside m.merges b0 b0 le_rfl
  · intro b0 r hf
    exact adjustBreakAux_to_top m.merges b0 b0 r le_rfl hf

/-- Witness for C5 at cell-disjoint, row-overlapping multi-row merges
⟨3,5,5,6⟩ and ⟨2,4,1,2⟩ with row heights 10, 10, 5, 10 and printable
height 25: the raw break before row 4 is deferred to 3 (inside ⟨3,5,5,6⟩)
and again to 2 (since 3 is strictly inside ⟨2,4,1,2⟩); the returned break
2 is outside the multi-row merge ⟨2,4,1,2⟩. -/
theorem computeBreaks_spec_witness :
    insideMerge 2 ⟨2, 4, 1, 2⟩ = false :=
  (computeBreaks_spec
      ⟨[⟨1, some 10, []⟩, ⟨2, some 10, []⟩, ⟨3, some 5, []⟩,
        ⟨4, some 10, []⟩], [⟨3, 5, 5, 6⟩, ⟨2, 4, 1, 2⟩]⟩ 25).1
    2 (by decide) ⟨2, 4, 1, 2⟩ (by decide)

/-! ## Row Expansion Engine

Modelled from the spec: §4.6 describes `expand` of
`app/xlsx_direct_v2.py`, whose Python source is not among the provided
files. Steps: validate the anchor, shift rows and cell references below
the anchor, shift the Merge Map, clone the template row (with its merges)
`insertCount` times, splice. -/

/-- Shift one cell's reference row by the delta (column unchanged). -/
def shiftCell (delta : Nat) (c : Cell) : Cell :=
  { c with rowRef := c.rowRef + delta }

/-- Shift a whole row below the anchor: its index and all its cells. -/
def shiftSRow (delta : Nat) (r : SRow) : SRow :=
  { r with idx := r.idx + delta, cells := r.cells.map (shiftCell delta) }

/-- Clone the template row's geometry and styles at a new index (§4.6
step 4). -/
def cloneRow (tmpl : SRow) (newIdx : Nat) : SRow :=
  { idx := newIdx, height := tmpl.height,
    cells := tmpl.cells.map fun c => { c with rowRef := newIdx } }

/-- `duplicate(rectangle, newRowOffset)` of §4.5: same column span and
height at a new row position. -/
def duplicateRect (r : Rect) (newTop : Nat) : Rect :=
  { r with top := newTop, bottom := newTop + (r.bottom - r.top) }

/-- `rectanglesAnchoredAt(row)` of §4.5. -/
def rectanglesAnchoredAt (merges : List Rect) (row : Nat) : List Rect :=
  merges.filter fun r => r.top == row

/-- `expand(SheetModel, anchorRow, insertCount, templateRowIndex)` of
§4.6. -/
def expand (m : SheetModel) (anchorRow insertCount templateRowIndex : Nat) :
    Except EngineError SheetModel :=
  if insertCount = 0 then .ok m
  else if ¬ (m.rows.any fun r => r.idx == anchorRow) then .error .RangeError
  else
    match m.rows.find? (fun r => r.idx == templateRowIndex) with
    | none => .error .RangeError
    | some tmpl =>
      if (rectanglesAnchoredAt m.merges templateRowIndex).any
          (fun r => decide (r.top < r.bottom)) then
        .error .AmbiguousMergeError
      else
        match shiftBelow (anchorRow + 1) insertCount m.merges with
        | .error e => .error e
        | .ok merges2 =>
          let upper := m.rows.filter fun r => decide (r.idx ≤ anchorRow)
          let lower := (m.rows.filter fun r =>
            decide (anchorRow < r.idx)).map (shiftSRow insertCount)
          let clones := (List.range insertCount).map fun i =>
            cloneRow tmpl (anchorRow + 1 + i)
          let cloneMerges := ((List.range insertCount).map fun i =>
            (rectanglesAnchoredAt m.merges templateRowIndex).map fun r =>
              duplicateRect r (anchorRow + 1 + i)).flatten
          .ok { rows := upper ++ clones ++ lower,
                merges := merges2 ++ cloneMerges }

theorem length_filter_le_add_lt (rows : List SRow) (anchorRow : Nat) :
    (rows.filter fun r => decide (r.idx ≤ anchorRow)).length +
      (rows.filter fun r => decide (anchorRow < r.idx)).length =
      rows.length := by
  induction rows with
  | nil => rfl
  | cons a as ih =>
    by_cases h : a.idx ≤ anchorRow
    · rw [List.filter_cons_of_pos (by simpa using h),
        List.filter_cons_of_neg (by simpa using Nat.not_lt.mpr h)]
      simp only [List.length_cons]
      omega
    · rw [List.filter_cons_of_neg (by simpa using h),
        List.filter_cons_of_pos (by simpa using Nat.not_le.mp h)]
      simp only [List.length_cons]
      omega

/-- **C1.** When the anchor row exists and `expand` succeeds, the result
has exactly `insertCount` more rows than the input, and every row
originally strictly below the anchor appears shifted down by exactly
`insertCount` — its index and each cell's reference row increased by
`insertCount`, cell reference columns unchanged. -/
theorem expand_spec (m : SheetModel)
    (anchorRow insertCount templateRowIndex : Nat) (m2 : SheetModel)
    (hanchor : ∃ r ∈ m.rows, r.idx = anchorRow)
    (hok : expand m anchorRow insertCount templateRowIndex = .ok m2) :
    m2.rows.length = m.rows.length + insertCount ∧
    ∀ r ∈ m.rows, anchorRow < r.idx →
      ∃ r2 ∈ m2.rows, r2.idx = r.idx + insertCount ∧
        r2.cells.length = r.cells.length ∧
        ∀ (i : Nat) (h1 : i < r.cells.length) (h2 : i < r2.cells.length),
          (r2.cells.get ⟨i, h2⟩).rowRef =
            (r.cells.get ⟨i, h1⟩).rowRef + insertCount ∧
          (r2.cells.get ⟨i, h2⟩).colRef = (r.cells.get ⟨i, h1⟩).colRef := by
  rw [expand] at hok
  by_cases h0 : insertCount = 0
  · rw [if_pos h0] at hok
    injection hok with hok
    subst hok
    subst h0
    refine ⟨by omega, ?_⟩
    intro r hr hlt
    refine ⟨r, hr, by omega, rfl, ?_⟩
    intro i h1 h2
    exact ⟨rfl, rfl⟩
  · rw [if_neg h0] at hok
    by_cases hany : m.rows.any fun r => r.idx == anchorRow
    · rw [if_neg (by simpa using hany)] at hok
      rcases hfind : m.rows.find? (fun r => r.idx == templateRowIndex) with
        _ | tmpl
      · rw [hfind] at hok
        cases hok
      · rw [hfind] at hok
        simp only at hok
        by_cases hstrad : (rectanglesAnchoredAt m.merges templateRowIndex).any
            (fun r => decide (r.top < r.bottom))
        · rw [if_pos hstrad] at hok
          cases hok
        · rw [if_neg hstrad] at hok
          rcases hsb : shiftBelow (anchorRow + 1) insertCount m.merges with
            e | merges2
          · rw [hsb] at hok
            cases hok
          · rw [hsb] at hok
            simp only at hok
            injection hok with hok
            subst hok
            constructor
            · simp only [List.length_append, List.length_map,
                List.length_range]
              have := length_filter_le_add_lt m.rows anchorRow
              omega
            · intro r hr hlt
              refine ⟨shiftSRow insertCount r, ?_, rfl, ?_, ?_⟩
              · simp only [List.mem_append]
                right
                exact List.mem_map.mpr ⟨r,
                  List.mem_filter.mpr ⟨hr, by simpa using hlt⟩, rfl⟩
              · simp [shiftSRow]
              · intro i h1 h2
                constructor
                · show ((r.cells.map (shiftCell insertCount)).get ⟨i, _⟩).rowRef = _
                  simp [List.get_eq_getElem, shiftCell]
                · show ((r.cells.map (shiftCell insertCount)).get ⟨i, _⟩).colRef = _
                  simp [List.get_eq_getElem, shiftCell]
    · rw [if_pos (by simpa using hany)] at hok
      cases hok

/-- Concrete input sheet for the C1 witness: rows 1 and 2, row 2 holding a
cell at column 3. -/
def exSheetIn : SheetModel :=
  ⟨[⟨1, none, [⟨1, 1, 0, .empty⟩]⟩, ⟨2, none, [⟨3, 2, 0, .empty⟩]⟩], []⟩

/-- The value of `expand exSheetIn 1 2 1`: two clones of row 1 spliced in
at rows 2–3, the old row 2 shifted to row 4. -/
def exSheetOut : SheetModel :=
  ⟨[⟨1, none, [⟨1, 1, 0, .empty⟩]⟩,
    ⟨2, none, [⟨1, 2, 0, .empty⟩]⟩,
    ⟨3, none, [⟨1, 3, 0, .empty⟩]⟩,
    ⟨4, none, [⟨3, 4, 0, .empty⟩]⟩], []⟩

/-- Witness for C1: expanding the concrete two-row sheet by 2 at anchor 1
gives a sheet with 2 + 2 rows. -/
theorem expand_spec_witness :
    exSheetOut.rows.length = exSheetIn.rows.length + 2 :=
  (expand_spec exSheetIn 1 2 1 exSheetOut
    ⟨⟨1, none, [⟨1, 1, 0, .empty⟩]⟩, List.mem_cons_self _ _, rfl⟩ rfl).1

/-! ## Injection Orchestrator

Modelled from the spec: §4.9 describes the per-request state machine of
`app/xlsx_direct_v2.py` and its callers, whose Python source is not among
the provided files. Each state's work (load, expand, inject, rewrite,
paginate, package) is abstracted as a stage function on the document that
may fail with a fatal `EngineError`; the caller-visible destination
receives the output only after every stage has succeeded. -/

/-- Run the state machine: terminal on success or on the first hard
failure. -/
def runStages : List (SheetModel → Except EngineError SheetModel) →
    SheetModel → Except EngineError SheetModel
  | [], d => .ok d
  | f :: fs, d =>
    match f d with
    | .ok d2 => runStages fs d2
    | .error e => .error e

/-- One export request: the full output is constructed first; the
caller-visible destination (second component) is written atomically and
only on overall success. -/
def exportRequest (stages : List (SheetModel → Except EngineError SheetModel))
    (d : SheetModel) :
    Except EngineError SheetModel × Option SheetModel :=
  match runStages stages d with
  | .ok out => (.ok out, some out)
  | .error e => (.error e, none)

/-- **C8.** A fatal error in any state aborts the whole request and the
caller-visible destination stays empty; a failure of any single stage
reached by the machine aborts the run with that error; and whenever the
destination holds an output, every stage succeeded and the output is the
complete final document. -/
theorem exportRequest_atomic :
    (∀ stages (d : SheetModel) (e : EngineError),
        runStages stages d = .error e → (exportRequest stages d).2 = none) ∧
    (∀ pre (f : SheetModel → Except EngineError SheetModel) post
        (d d2 : SheetModel) (e : EngineError),
        runStages pre d = .ok d2 → f d2 = .error e →
        runStages (pre ++ f :: post) d = .error e) ∧
    (∀ stages (d out : SheetModel),
        (exportRequest stages d).2 = some out →
        runStages stages d = .ok out) := by
  refine ⟨?_, ?_, ?_⟩
  · intro stages d e herr
    rw [exportRequest, herr]
  · intro pre f post d d2 e hpre hf
    induction pre generalizing d with
    | nil =>
      injection hpre with hpre
      subst hpre
      simp only [List.nil_append, runStages, hf]
    | cons g gs ih =>
      rw [runStages] at hpre
      rcases hg : g d with e2 | d3
      · rw [hg] at hpre
        cases hpre
      · rw [hg] at hpre
        simp only [List.cons_append, runStages, hg]
        exact ih d3 hpre
  · intro stages d out hsome
    rw [exportRequest] at hsome
    rcases hrun : runStages stages d with e | out2
    · rw [hrun] at hsome
      cases hsome
    · rw [hrun] at hsome
      injection hsome with hsome
      subst hsome
      rfl

/-- Witness for C8: a pipeline whose second stage fails with `RangeError`
writes nothing to the destination. -/
theorem exportRequest_atomic_witness :
    (exportRequest [fun d => .ok d, fun _ => .error .RangeError]
      exSheetIn).2 = none :=
  exportRequest_atomic.1 [fun d => .ok d, fun _ => .error .RangeError]
    exSheetIn .RangeError rfl

/-! ## XML Part Model: parse / serialize round trip

Modelled from the spec: §4.2 describes `parseSheet`/`serializeSheet` of
`app/xlsx_direct_v2.py`, whose Python source is not among the provided
files. Sheet XML is modelled as a `<sheetData>` element of `<row r="N">`
elements holding `<c r="REF"><v>VAL</v></c>` cells, over character lists;
"no redundant or equivalent-but-different-formatting constructs" is
modelled as the canonical form emitted by `serializeSheet` on a
well-formed model. -/

/-- A cell of the XML part model: raw reference text and raw value text
(values are re-emitted in the literal form they were parsed in, §4.2). -/
structure XCell where
  ref : List Char
  val : List Char
deriving DecidableEq, Repr

/-- A row of the XML part model. -/
structure XRow where
  idx : Nat
  cells : List XCell
deriving DecidableEq, Repr

/-- The XML part model of one sheet. -/
structure XSheet where
  rows : List XRow
deriving DecidableEq, Repr

/-- `<sheetData>` -/
def tagSheetOpen : List Char :=
  ['<', 's', 'h', 'e', 'e', 't', 'D', 'a', 't', 'a', '>']

/-- `</sheetData>` -/
def tagSheetClose : List Char :=
  ['<', '/', 's', 'h', 'e', 'e', 't', 'D', 'a', 't', 'a', '>']

/-- `<row r="` -/
def tagRowOpenPre : List Char := ['<', 'r', 'o', 'w', ' ', 'r', '=', '"']

/-- `">` -/
def tagRowOpenSuf : List Char := ['"', '>']

/-- `</row>` -/
def tagRowClose : List Char := ['<', '/', 'r', 'o', 'w', '>']

/-- `<c r="` -/
def tagCellOpenPre : List Char := ['<', 'c', ' ', 'r', '=', '"']

/-- `"><v>` -/
def tagCellMid : List Char := ['"', '>', '<', 'v', '>']

/-- `</v></c>` -/
def tagCellClose : List Char := ['<', '/', 'v', '>', '<', '/', 'c', '>']

/-- Serialize one cell. -/
def serializeCell (c : XCell) : List Char :=
  tagCellOpenPre ++ (c.ref ++ (tagCellMid ++ (c.val ++ tagCellClose)))

/-- Serialize a cell list. -/
def serializeCells : List XCell → List Char
  | [] => []
  | c :: cs => serializeCell c ++ serializeCells cs

/-- Serialize one row. -/
def serializeRow (r : XRow) : List Char :=
  tagRowOpenPre ++ (natDigits r.idx ++ (tagRowOpenSuf ++
    (serializeCells r.cells ++ tagRowClose)))

/-- Serialize a row list. -/
def serializeRows : List XRow → List Char
  | [] => []
  | r :: rs => serializeRow r ++ serializeRows rs

/-- `serializeSheet(SheetModel)` of §4.2: deterministic canonical bytes. -/
def serializeSheet (s : XSheet) : List Char :=
  tagSheetOpen ++ (serializeRows s.rows ++ tagSheetClose)

/-- Consume an expected literal prefix. -/
def expectStr : List Char → List Char → Option (List Char)
  | [], s => some s
  | p :: ps, c :: cs => if c = p then expectStr ps cs else none
  | _ :: _, [] => none

/-- Take characters up to (not including) the stop character, which must
occur; the stop character stays at the head of the remainder. -/
def takeUntil (stop : Char) : List Char → Option (List Char × List Char)
  | [] => none
  | c :: cs =>
    if c = stop then some ([], c :: cs)
    else
      match takeUntil stop cs with
      | some (a, rest) => some (c :: a, rest)
      | none => none

/-- Parse one cell: `<c r="REF"><v>VAL</v></c>`. -/
def parseCell (s : List Char) : Option (XCell × List Char) :=
  (expectStr tagCellOpenPre s).bind fun s1 =>
  (takeUntil '"' s1).bind fun p =>
  (expectStr tagCellMid p.2).bind fun s3 =>
  (takeUntil '<' s3).bind fun q =>
  (expectStr tagCellClose q.2).bind fun s5 =>
  some (⟨p.1, q.1⟩, s5)

/-- Parse cells until the enclosing `</row>`, consuming it. -/
def parseCellsAux : Nat → List Char → Option (List XCell × List Char)
  | 0, _ => none
  | fuel + 1, s =>
    match expectStr tagRowClose s with
    | some rest => some ([], rest)
    | none =>
      (parseCell s).bind fun c1 =>
      (parseCellsAux fuel c1.2).bind fun p =>
      some (c1.1 :: p.1, p.2)

/-- Parse one row: `<row r="N">cells</row>`. -/
def parseRow (fuel : Nat) (s : List Char) : Option (XRow × List Char) :=
  (expectStr tagRowOpenPre s).bind fun s1 =>
  (takeUntil '"' s1).bind fun d =>
  (digitsToNat d.1).bind fun idx =>
  (expectStr tagRowOpenSuf d.2).bind fun s3 =>
  (parseCellsAux fuel s3).bind fun p =>
  some (⟨idx, p.1⟩, p.2)

/-- Parse rows until the enclosing `</sheetData>`, consuming it. -/
def parseRowsAux : Nat → List Char → Option (List XRow × List Char)
  | 0, _ => none
  | fuel + 1, s =>
    match expectStr tagSheetClose s with
    | some rest => some ([], rest)
    | none =>
      (parseRow fuel s).bind fun r1 =>
      (parseRowsAux fuel r1.2).bind fun p =>
      some (r1.1 :: p.1, p.2)

/-- `parseSheet(bytes)` of §4.2: fails with `FormatError` on anything that
is not a sheet of the expected shape. -/
def parseSheet (bytes : List Char) : Except EngineError XSheet :=
  match expectStr tagSheetOpen bytes with
  | none => .error .FormatError
  | some rest =>
    match parseRowsAux (bytes.length + 1) rest with
    | some (rows, []) => .ok ⟨rows⟩
    | _ => .error .FormatError

/-- Well-formed cell text: the raw texts contain no delimiter of the
enclosing markup. -/
def wfCell (c : XCell) : Prop := '"' ∉ c.ref ∧ '<' ∉ c.val

/-- Well-formed row: positive index, well-formed cells. -/
def wfRow (r : XRow) : Prop := 1 ≤ r.idx ∧ ∀ c ∈ r.cells, wfCell c

/-- Well-formed sheet model. -/
def wfSheet (s : XSheet) : Prop := ∀ r ∈ s.rows, wfRow r

theorem expectStr_append (pat s : List Char) :
    expectStr pat (pat ++ s) = some s := by
  induction pat with
  | nil => rfl
  | cons p ps ih => simp [expectStr, ih]

theorem takeUntil_no_stop (stop : Char) (content rest : List Char)
    (h : stop ∉ content) :
    takeUntil stop (content ++ stop :: rest) = some (content, stop :: rest) := by
  induction content with
  | nil => simp [takeUntil]
  | cons c cs ih =>
    have hc : c ≠ stop := fun hccc => h (hccc ▸ List.mem_cons_self c cs)
    have hcs : stop ∉ cs := fun hm => h (List.mem_cons_of_mem _ hm)
    simp only [List.cons_append, takeUntil, if_neg hc, List.append_eq, ih hcs]

theorem expectStr_rowClose_cell (c : XCell) (x : List Char) :
    expectStr tagRowClose (serializeCell c ++ x) = none := by
  simp [serializeCell, tagCellOpenPre, tagRowClose, expectStr]

theorem expectStr_sheetClose_row (r : XRow) (x : List Char) :
    expectStr tagSheetClose (serializeRow r ++ x) = none := by
  simp [serializeRow, tagRowOpenPre, tagSheetClose, expectStr]

theorem natDigits_no_quote (n : Nat) : ∀ c ∈ natDigits n, c ≠ '"' := by
  induction n using Nat.strong_induction_on with
  | _ n ih =>
    rcases Nat.eq_zero_or_pos n with rfl | hn
    · simp [natDigits_zero]
    · have hne : n ≠ 0 := Nat.pos_iff_ne_zero.mp hn
      have hlt : n / 10 < n := Nat.div_lt_self hn (by norm_num)
      rw [natDigits_pos n hne]
      intro c hc
      rcases List.mem_append.mp hc with h1 | h2
      · exact ih _ hlt c h1
      · have hceq : c = Char.ofNat (48 + n % 10) := by simpa using h2
        subst hceq
        have hmod : n % 10 < 10 := Nat.mod_lt _ (by norm_num)
        interval_cases h : n % 10 <;> decide

theorem parseCell_rt (c : XCell) (rest : List Char) (hwf : wfCell c) :
    parseCell (serializeCell c ++ rest) = some (c, rest) := by
  obtain ⟨ref, val⟩ := c
  obtain ⟨h1, h2⟩ := hwf
  simp only at h1 h2
  have hs : serializeCell ⟨ref, val⟩ ++ rest =
      tagCellOpenPre ++ (ref ++ ('"' :: (['>', '<', 'v', '>'] ++
        (val ++ ('<' :: (['/', 'v', '>', '<', '/', 'c', '>'] ++
          rest)))))) := by
    simp [serializeCell, tagCellMid, tagCellClose]
  rw [hs, parseCell, expectStr_append]
  simp only [Option.some_bind]
  rw [takeUntil_no_stop '"' ref _ h1]
  simp only [Option.some_bind]
  have hm : ('"' :: (['>', '<', 'v', '>'] ++ (val ++ ('<' ::
      (['/', 'v', '>', '<', '/', 'c', '>'] ++ rest))))) =
      tagCellMid ++ (val ++ ('<' ::
        (['/', 'v', '>', '<', '/', 'c', '>'] ++ rest))) := by
    simp [tagCellMid]
  rw [hm, expectStr_append]
  simp only [Option.some_bind]
  rw [takeUntil_no_stop '<' val _ h2]
  simp only [Option.some_bind]
  have hc : ('<' :: (['/', 'v', '>', '<', '/', 'c', '>'] ++ rest)) =
      tagCellClose ++ rest := by
    simp [tagCellClose]
  rw [hc, expectStr_append]
  simp only [Option.some_bind]

theorem parseCellsAux_rt (cells : List XCell) :
    ∀ (fuel : Nat) (rest : List Char), cells.length < fuel →
      (∀ c ∈ cells, wfCell c) →
      parseCellsAux fuel (serializeCells cells ++ (tagRowClose ++ rest)) =
        some (cells, rest) := by
  induction cells with
  | nil =>
    intro fuel rest hfuel _
    obtain ⟨f, rfl⟩ : ∃ f, fuel = f + 1 :=
      ⟨fuel - 1, by omega⟩
    simp only [serializeCells, List.nil_append, parseCellsAux,
      expectStr_append]
  | cons c cs ih =>
    intro fuel rest hfuel hwf
    obtain ⟨f, rfl⟩ : ∃ f, fuel = f + 1 := ⟨fuel - 1, by omega⟩
    have hassoc : serializeCells (c :: cs) ++ (tagRowClose ++ rest) =
        serializeCell c ++ (serializeCells cs ++ (tagRowClose ++ rest)) := by
      simp [serializeCells]
    rw [hassoc, parseCellsAux]
    rw [expectStr_rowClose_cell]
    rw [parseCell_rt c _ (hwf c (List.mem_cons_self c cs))]
    simp only [Option.some_bind]
    rw [ih f rest (by simpa using Nat.lt_of_succ_lt_succ hfuel)
      (fun x hx => hwf x (List.mem_cons_of_mem _ hx))]
    simp only [Option.some_bind]

theorem parseRow_rt (r : XRow) (rest : List Char) (fuel : Nat)
    (hwf : wfRow r) (hfuel : r.cells.length < fuel) :
    parseRow fuel (serializeRow r ++ rest) = some (r, rest) := by
  obtain ⟨idx, cells⟩ := r
  obtain ⟨hidx, hcells⟩ := hwf
  simp only at hidx hcells hfuel
  have hs : serializeRow ⟨idx, cells⟩ ++ rest =
      tagRowOpenPre ++ (natDigits idx ++ ('"' :: ('>' ::
        (serializeCells cells ++ (tagRowClose ++ rest))))) := by
    simp [serializeRow, tagRowOpenSuf]
  rw [hs, parseRow, expectStr_append]
  simp only [Option.some_bind]
  rw [takeUntil_no_stop '"' (natDigits idx) _ (fun hm =>
    natDigits_no_quote idx '"' hm rfl)]
  simp only [Option.some_bind]
  rw [digitsToNat_natDigits idx (by omega)]
  simp only [Option.some_bind]
  have hsuf : ('"' :: ('>' :: (serializeCells cells ++
      (tagRowClose ++ rest)))) =
      tagRowOpenSuf ++ (serializeCells cells ++ (tagRowClose ++ rest)) := by
    simp [tagRowOpenSuf]
  rw [hsuf, expectStr_append]
  simp only [Option.some_bind]
  rw [parseCellsAux_rt cells fuel rest hfuel hcells]
  simp only [Option.some_bind]

/-- Fuel needed by `parseRowsAux` for a row list. -/
def needRows : List XRow → Nat
  | [] => 0
  | r :: rs => r.cells.length + 2 + needRows rs

theorem parseRowsAux_rt (rows : List XRow) :
    ∀ (fuel : Nat) (rest : List Char), needRows rows < fuel →
      (∀ r ∈ rows, wfRow r) →
      parseRowsAux fuel (serializeRows rows ++ (tagSheetClose ++ rest)) =
        some (rows, rest) := by
  induction rows with
  | nil =>
    intro fuel rest hfuel _
    obtain ⟨f, rfl⟩ : ∃ f, fuel = f + 1 := ⟨fuel - 1, by omega⟩
    simp only [serializeRows, List.nil_append, parseRowsAux,
      expectStr_append]
  | cons r rs ih =>
    intro fuel rest hfuel hwf
    obtain ⟨f, rfl⟩ : ∃ f, fuel = f + 1 := ⟨fuel - 1, by omega⟩
    rw [needRows] at hfuel
    have hassoc : serializeRows (r :: rs) ++ (tagSheetClose ++ rest) =
        serializeRow r ++ (serializeRows rs ++ (tagSheetClose ++ rest)) := by
      simp [serializeRows]
    rw [hassoc, parseRowsAux]
    rw [expectStr_sheetClose_row]
    rw [parseRow_rt r _ f (hwf r (List.mem_cons_self r rs)) (by omega)]
    simp only [Option.some_bind]
    rw [ih f rest (by omega) (fun x hx => hwf x (List.mem_cons_of_mem _ hx))]
    simp only [Option.some_bind]

theorem serializeCells_length_ge (cells : List XCell) :
    cells.length ≤ (serializeCells cells).length := by
  induction cells with
  | nil => simp [serializeCells]
  | cons c cs ih =>
    have : 1 ≤ (serializeCell c).length := by
      simp [serializeCell, tagCellOpenPre]
    simp only [serializeCells, List.length_append, List.length_cons]
    omega

theorem needRows_le (rows : List XRow) :
    needRows rows ≤ (serializeRows rows).length := by
  induction rows with
  | nil => simp [needRows, serializeRows]
  | cons r rs ih =>
    have h1 : r.cells.length ≤ (serializeCells r.cells).length :=
      serializeCells_length_ge r.cells
    have h2 : (serializeRow r).length =
        8 + (natDigits r.idx).length + 2 +
          (serializeCells r.cells).length + 6 := by
      simp [serializeRow, tagRowOpenPre, tagRowOpenSuf, tagRowClose]
      omega
    simp only [needRows, serializeRows, List.length_append]
    omega

theorem parseSheet_rt (s : XSheet) (hwf : wfSheet s) :
    parseSheet (serializeSheet s) = .ok s := by
  obtain ⟨rows⟩ := s
  have hb : serializeSheet ⟨rows⟩ =
      tagSheetOpen ++ (serializeRows rows ++ (tagSheetClose ++ [])) := by
    simp [serializeSheet]
  rw [parseSheet, hb, expectStr_append]
  dsimp only
  have hfuel : needRows rows <
      (tagSheetOpen ++ (serializeRows rows ++ (tagSheetClose ++ []))).length
        + 1 := by
    have := needRows_le rows
    simp only [List.length_append]
    omega
  rw [parseRowsAux_rt rows _ [] hfuel hwf]

/-- **C3.** The parse-then-serialize round trip is byte-identical on the
canonical domain: serializing any well-formed sheet model parses back to
exactly that model, so any byte sequence in the canonical form (emitted by
`serializeSheet` for some well-formed model, the modelling of "no
redundant or equivalent-but-different-formatting constructs") parses
successfully and re-serializes to exactly the same bytes. -/
theorem sheet_roundtrip :
    (∀ s : XSheet, wfSheet s → parseSheet (serializeSheet s) = .ok s) ∧
    (∀ bytes : List Char,
        (∃ s : XSheet, wfSheet s ∧ serializeSheet s = bytes) →
        ∃ s : XSheet, parseSheet bytes = .ok s ∧ serializeSheet s = bytes) := by
  constructor
  · exact parseSheet_rt
  · rintro bytes ⟨s, hwf, rfl⟩
    exact ⟨s, parseSheet_rt s hwf, rfl⟩

/-- Witness for C3 at a concrete sheet: one row `<row r="1">` holding the
cell `<c r="A1"><v>5</v></c>` round-trips. -/
theorem sheet_roundtrip_witness :
    parseSheet (serializeSheet ⟨[⟨1, [⟨['A', '1'], ['5']⟩]⟩]⟩) =
      .ok ⟨[⟨1, [⟨['A', '1'], ['5']⟩]⟩]⟩ :=
  sheet_roundtrip.1 ⟨[⟨1, [⟨['A', '1'], ['5']⟩]⟩]⟩
    (by unfold wfSheet wfRow wfCell; decide)

end Geofal
